import Mathlib

/-!
Verification of the core algorithms of the `thanos` CLI
(`thanos_cli/weights.py`, `thanos_cli/snap.py`, and the protection
predicate specified in the design document).

Python strings are embedded as `List Char`, Python floats as `ℚ`
(exact arithmetic; the claims under scrutiny are about control flow,
counts and ordering, not about binary rounding), Python `dict`s as
ordered association lists (insertion order is iteration order), and a
raised exception as the `Except.error` branch of `Except Unit`.
-/

deriving instance DecidableEq for Except

namespace Thanos

/-! ## String primitives (embedding of the `str` operations used by `weights.py`) -/

/-- Embedding of Python `str.strip()` on the whitespace characters:
drop whitespace from both ends. -/
def stripChars (s : List Char) : List Char :=
  ((s.dropWhile Char.isWhitespace).reverse.dropWhile Char.isWhitespace).reverse

/-- Embedding of Python `str.split(sep)` for a one-character separator:
`splitOnChar c s` cuts `s` at every occurrence of `c`.
(`"".split("-") = [""]`, `"a-b".split("-") = ["a","b"]`, etc.) -/
def splitOnChar (sep : Char) : List Char → List (List Char)
  | [] => [[]]
  | c :: cs =>
    match splitOnChar sep cs with
    | [] => [[]]
    | p :: ps => if c = sep then [] :: p :: ps else (c :: p) :: ps

/-- Value of a digit string, most significant digit first. -/
def digitsVal (cs : List Char) : Nat :=
  cs.foldl (fun a c => a * 10 + (c.toNat - 48)) 0

/-- Unsigned part of the Python `float(s)` literal parser: digits with an
optional fractional part, at least one digit overall
(`float("5.")`, `float(".25")` succeed; `float("")`, `float(".")` raise). -/
def parseUnsigned (t : List Char) : Option ℚ :=
  match splitOnChar '.' t with
  | [ip] =>
    if !ip.isEmpty && ip.all Char.isDigit then some ((digitsVal ip : ℚ)) else none
  | [ip, fp] =>
    if (!ip.isEmpty || !fp.isEmpty) && ip.all Char.isDigit && fp.all Char.isDigit
    then some ((digitsVal ip : ℚ) + (digitsVal fp : ℚ) / 10 ^ fp.length)
    else none
  | _ => none

/-- Embedding of Python `float(s)`: strip whitespace, optional sign, decimal
literal.  `none` models the `ValueError` that `float` raises on any other
input.  (The modelled fragment covers plain decimal literals; exponent,
`inf`/`nan` and underscore forms are outside the fragment — no selector in
the spec or the tests uses them.) -/
def parseFloat (s : List Char) : Option ℚ :=
  match stripChars s with
  | [] => none
  | c :: r =>
    if c = '-' then (parseUnsigned r).map (fun q => -q)
    else if c = '+' then parseUnsigned r
    else parseUnsigned (c :: r)

/-! ## `_matches_age_range` / `_matches_size_range` (weights.py lines 68-127)

Both Python functions have the same body, so both are defined from the one
translation `rangeMatches`.  `Except.error ()` models an uncaught
`ValueError` escaping the function (which happens exactly when the range
string ends in `+`/`-` and the part before the sign does not parse as a
float: that `float` call is not wrapped in a `try`, unlike the min-max
branch). -/

/-- Body of `_matches_age_range` / `_matches_size_range` after the initial
`age_range = age_range.strip()` reassignment: `r` is the already-stripped
range string. -/
def rangeMatchesCore (x : ℚ) (r : List Char) : Except Unit Bool :=
  if r.getLast? = some '+' ∨ r.getLast? = some '-' then
    match parseFloat r.dropLast with
    | none => .error ()
    | some mn => .ok (decide (mn ≤ x))
  else if '-' ∈ r then
    match splitOnChar '-' r with
    | [a, b] =>
      match parseFloat a with
      | none => .ok false
      | some mn =>
        match parseFloat b with
        | none => .ok false
        | some mx => .ok (decide (mn ≤ x ∧ x < mx))
    | _ => .ok false
  else .ok false

/-- Translation of the shared body of `_matches_age_range` and
`_matches_size_range` (weights.py lines 68-127): strip, then test the
trailing-sign form, then the min-max form. -/
def rangeMatches (x : ℚ) (range : List Char) : Except Unit Bool :=
  rangeMatchesCore x (stripChars range)

/-- `_matches_age_range(age_days, age_range)` (weights.py lines 68-96). -/
def _matches_age_range (age_days : ℚ) (age_range : List Char) : Except Unit Bool :=
  rangeMatches age_days age_range

/-- `_matches_size_range(size_mb, size_range)` (weights.py lines 99-127). -/
def _matches_size_range (size_mb : ℚ) (size_range : List Char) : Except Unit Bool :=
  rangeMatches size_mb size_range

/-! ## `calculate_file_weight` (weights.py lines 6-65) -/

/-- Result of a successful `file.stat()`. -/
structure FileStat where
  mtime : ℚ
  st_size : ℚ
  deriving DecidableEq

/-- The slice of a `pathlib.Path` that `calculate_file_weight` reads:
its suffix and its stat data; `stat = none` models `file.stat()` raising
`OSError`. -/
structure FileInfo where
  suffix : List Char
  stat : Option FileStat
  deriving DecidableEq

/-- The `weights` table of `.thanosrc`: three optional sub-tables, each an
insertion-ordered mapping from selector string to weight. -/
structure WeightsConfig where
  by_extension : List (List Char × ℚ)
  by_age_days : List (List Char × ℚ)
  by_size_mb : List (List Char × ℚ)
  deriving DecidableEq

/-- Python `if not weights_config:` — the config dict is empty. -/
def WeightsConfig.isEmptyCfg (c : WeightsConfig) : Bool :=
  c.by_extension.isEmpty && c.by_age_days.isEmpty && c.by_size_mb.isEmpty

/-- The `for range, weight in table.items(): if matches: append; break` scan
of one age/size sub-table: first matching selector wins; an uncaught
`ValueError` from the range matcher aborts the whole scan. -/
def rangeTableLookup (x : ℚ) : List (List Char × ℚ) → Except Unit (Option ℚ)
  | [] => .ok none
  | (sel, w) :: rest =>
    match rangeMatches x sel with
    | .error e => .error e
    | .ok true => .ok (some w)
    | .ok false => rangeTableLookup x rest

/-- Contribution of the `by_extension` sub-table (weights.py lines 25-27):
exact dict lookup of the file's suffix. -/
def extContribution (file : FileInfo) (tbl : List (List Char × ℚ)) : Option ℚ :=
  if tbl.isEmpty then none else tbl.lookup file.suffix

/-- Contribution of the `by_age_days` sub-table (weights.py lines 30-44):
`age_days = (time.time() - mtime) / 86400`; the surrounding
`try/except (OSError, ValueError)` turns both a failed `stat` and an
uncaught range-parse `ValueError` into "this sub-table contributes
nothing". -/
def ageContribution (file : FileInfo) (now : ℚ) (tbl : List (List Char × ℚ)) : Option ℚ :=
  if tbl.isEmpty then none
  else
    match file.stat with
    | none => none
    | some st =>
      match rangeTableLookup ((now - st.mtime) / 86400) tbl with
      | .error _ => none
      | .ok o => o

/-- Contribution of the `by_size_mb` sub-table (weights.py lines 47-61):
`size_mb = st_size / (1024 * 1024)`, same exception policy as the age
sub-table. -/
def sizeContribution (file : FileInfo) (tbl : List (List Char × ℚ)) : Option ℚ :=
  if tbl.isEmpty then none
  else
    match file.stat with
    | none => none
    | some st =>
      match rangeTableLookup (st.st_size / (1024 * 1024)) tbl with
      | .error _ => none
      | .ok o => o

/-- The `weights` list accumulated by `calculate_file_weight`, in the order
the Python code appends: extension, then age, then size. -/
def collectedWeights (file : FileInfo) (cfg : WeightsConfig) (now : ℚ) : List ℚ :=
  [extContribution file cfg.by_extension,
   ageContribution file now cfg.by_age_days,
   sizeContribution file cfg.by_size_mb].filterMap id

/-- `calculate_file_weight(file, weights_config)` (weights.py lines 6-65),
with `now` standing for the `time.time()` reference instant:
`0.5` on an empty config, otherwise the mean of the collected
contributions, or `0.5` when none were collected. -/
def calculate_file_weight (file : FileInfo) (cfg : WeightsConfig) (now : ℚ) : ℚ :=
  if cfg.isEmptyCfg then 1/2
  else if collectedWeights file cfg now = [] then 1/2
  else (collectedWeights file cfg now).sum / ((collectedWeights file cfg now).length : ℚ)

/-! ## `weighted_random_sample` (weights.py lines 130-159)

The module-level Mersenne stream of Python's `random` is embedded as a
function `u : Nat → ℚ` giving the raw uniform draw consumed at each loop
iteration (each iteration performs exactly one call, `random.uniform` or
`random.randint`), together with the index `step` of the next draw.
`random.seed(s)` fixing the stream corresponds to fixing `u`;
`random.uniform(0, total)` is `u step * total`, and `random.randint(0, n-1)`
is modelled as the stream-determined integer `randintDraw (u step) n`,
which lies in `[0, n-1]` for every draw, as `randint` guarantees. -/

/-- `random.uniform(0, total)`: `total * u` for the raw draw `u ∈ [0, 1)`. -/
def uniformDraw (u total : ℚ) : ℚ := u * total

/-- Model of `random.randint(0, n - 1)`: a stream-determined integer in
`[0, n - 1]` (for `n ≥ 1`). -/
def randintDraw (u : ℚ) (n : Nat) : Nat := min (⌊u * (n : ℚ)⌋.toNat) (n - 1)

/-- The cumulative scan of weights.py lines 147-153: `cum` is the running
`cumulative` value and `i` the current index; returns the first index whose
cumulative weight reaches `r`, or `none` when the loop finishes without
breaking (in which case the Python `idx` keeps its initial value `0`). -/
def scanPick (r : ℚ) : List ℚ → ℚ → Nat → Option Nat
  | [], _, _ => none
  | w :: ws, cum, i => if r ≤ cum + w then some i else scanPick r ws (cum + w) (i + 1)

/-- Index selected by one iteration of the sampling loop (weights.py lines
140-153) over a pool of `n` files: uniform fallback when the remaining
weights sum to zero, cumulative weighted choice otherwise. -/
def sampleIdx (u : ℚ) (n : Nat) (weights : List ℚ) : Nat :=
  if weights.sum = 0 then randintDraw u n
  else (scanPick (uniformDraw u weights.sum) weights 0 0).getD 0

/-- `weighted_random_sample(files, weights, k)` (weights.py lines 130-159),
 threading the random stream `u` and the index `step` of its next draw.
`Except.error ()` models the `IndexError` raised by
`remaining_files[idx]` or `remaining_weights.pop(idx)` when `idx` falls
outside either list (possible only when the two lists have different
lengths); the function performs no validation of its own. -/
def weighted_random_sample {α : Type} (u : Nat → ℚ) :
    Nat → List α → List ℚ → Nat → Except Unit (List α)
  | _, _, _, 0 => .ok []
  | _, [], _, _ + 1 => .ok []
  | step, f :: fs, weights, k + 1 =>
    if h : sampleIdx (u step) (f :: fs).length weights < (f :: fs).length ∧
        sampleIdx (u step) (f :: fs).length weights < weights.length then
      match weighted_random_sample u (step + 1)
          ((f :: fs).eraseIdx (sampleIdx (u step) (f :: fs).length weights))
          (weights.eraseIdx (sampleIdx (u step) (f :: fs).length weights)) k with
      | .ok rest =>
        .ok ((f :: fs).get ⟨sampleIdx (u step) (f :: fs).length weights, h.1⟩ :: rest)
      | .error e => .error e
    else .error ()

/-- A fixed random stream used for concrete runs: every raw draw is 1. -/
def oneStream : Nat → ℚ := fun _ => 1

/-! ## The mutable state of one `weighted_random_sample` call

`snap` (snap.py lines 94-99) passes its `files` and `weights` lists to
`weighted_random_sample` and relies on them afterwards.  To state the frame
claim, the call is also embedded as a state machine over the four list
variables of the Python function body: the caller's two lists and the
local copies `remaining_files = list(files)`, `remaining_weights =
list(weights)`; each loop iteration mutates only the copies and
`selected`. -/

structure SampleState (α : Type) where
  files : List α
  weights : List ℚ
  remaining_files : List α
  remaining_weights : List ℚ
  selected : List α

/-- State after lines 132-134 of weights.py: `selected = []` and the two
`list(...)` copies taken; the caller's lists are bound unchanged. -/
def initState {α : Type} (files : List α) (weights : List ℚ) : SampleState α :=
  { files := files
    weights := weights
    remaining_files := files
    remaining_weights := weights
    selected := [] }

/-- One iteration of the `for _ in range(k)` loop (weights.py lines
136-157): a no-op once the pool is empty (the Python `break`), otherwise
append the chosen file to `selected` and pop it from the two copies.  Only
`remaining_files`, `remaining_weights` and `selected` are assigned. -/
def sampleStep {α : Type} [Inhabited α] (u : ℚ) (s : SampleState α) : SampleState α :=
  if s.remaining_files.isEmpty then s
  else
    { files := s.files
      weights := s.weights
      remaining_files :=
        s.remaining_files.eraseIdx (sampleIdx u s.remaining_files.length s.remaining_weights)
      remaining_weights :=
        s.remaining_weights.eraseIdx (sampleIdx u s.remaining_files.length s.remaining_weights)
      selected := s.selected ++
        [s.remaining_files.getD (sampleIdx u s.remaining_files.length s.remaining_weights)
          default] }

/-- `k` iterations of the sampling loop from state `s`, the next raw draw
being `u step`. -/
def runSample {α : Type} [Inhabited α] (u : Nat → ℚ) (step : Nat) (s : SampleState α) :
    Nat → SampleState α
  | 0 => s
  | k + 1 => runSample u (step + 1) (sampleStep (u step) s) k

/-! ## `should_protect_file` (thanos_cli/protection.py — not in the source
tree; modelled from the spec)

Modelled from the spec: `protection.py` is absent from the repository
snapshot (only `snap.py` and the tests import it), so `should_protect_file`
and its pattern matcher are reconstructed from §4.1-§4.2 and §3 of the
design document.  Paths are sequences of path segments, each segment a
string of characters; patterns are raw pattern strings classified by their
literal form exactly as §3 prescribes. -/

/-- Single-segment glob match, `*` standing for any run of characters
within the segment (spec §3, wildcard pattern). -/
def globMatch : List Char → List Char → Bool
  | [], [] => true
  | [], _ :: _ => false
  | '*' :: ps, [] => globMatch ps []
  | '*' :: ps, c :: cs => globMatch ps (c :: cs) || globMatch ('*' :: ps) cs
  | _ :: _, [] => false
  | p :: ps, c :: cs => p = c && globMatch ps cs
  termination_by p c => (p.length, c.length)

/-- The trailing glob component of a double-star pattern: the part after a
leading `**/` (spec §3, double-star pattern). -/
def starStarTail (pat : List Char) : List Char :=
  match pat with
  | '*' :: '*' :: '/' :: rest => rest
  | _ => pat

/-- `"/".join(rel)`: the full relative path as a single string. -/
def intercalateSlash : List (List Char) → List Char
  | [] => []
  | [s] => s
  | s :: rest => s ++ '/' :: intercalateSlash rest

/-- Modelled from the spec (§3): does one protection pattern match a
relative path given as its list of segments?  Directory patterns match a
directory segment anywhere above the final segment; double-star and
wildcard patterns glob the final segment; exact patterns match any one
segment or the whole relative path. -/
def patternMatchesRel (pat : List Char) (rel : List (List Char)) : Bool :=
  if pat.getLast? = some '/' then
    decide (pat.dropLast ∈ rel.dropLast)
  else if decide (['*', '*'] <:+: pat) then
    match rel.getLast? with
    | some fname => globMatch (starStarTail pat) fname
    | none => false
  else if '*' ∈ pat then
    match rel.getLast? with
    | some fname => globMatch pat fname
    | none => false
  else
    decide (pat ∈ rel ∨ pat = intercalateSlash rel)

/-- Modelled from the spec (§4.1): `relativize(path, base)`, `none` being
the `OUTSIDE` signal (Python: `path.relative_to(base)` raising
`ValueError`). -/
def relativize (path base : List (List Char)) : Option (List (List Char)) :=
  if path.take base.length = base ∧ base.length < path.length
  then some (path.drop base.length)
  else none

/-- Modelled from the spec (§4.2): `should_protect_file(file, base_path,
patterns)` — `false` outright on an empty pattern set, `true` (fail
closed) when the path is outside the base, otherwise `true` iff some
pattern matches the relative path. -/
def should_protect_file (path base : List (List Char)) (patterns : List (List Char)) : Bool :=
  if patterns.isEmpty then false
  else
    match relativize path base with
    | none => true
    | some rel => patterns.any (fun p => patternMatchesRel p rel)

/-! ## Lemmas about the string primitives -/

theorem dropWhile_eq_self_of_all {p : Char → Bool} {l : List Char}
    (h : ∀ c ∈ l, p c = false) : l.dropWhile p = l := by
  cases l with
  | nil => rfl
  | cons a t => simp [List.dropWhile_cons, h a (List.mem_cons_self a t)]

theorem stripChars_eq_self {l : List Char}
    (h : ∀ c ∈ l, c.isWhitespace = false) : stripChars l = l := by
  unfold stripChars
  rw [dropWhile_eq_self_of_all h,
      dropWhile_eq_self_of_all (fun c hc => h c (List.mem_reverse.mp hc)),
      List.reverse_reverse]

theorem mem_stripChars {l : List Char} {c : Char} (h : c ∈ stripChars l) : c ∈ l := by
  unfold stripChars at h
  exact (List.dropWhile_sublist _).mem
    (List.mem_reverse.mp ((List.dropWhile_sublist _).mem (List.mem_reverse.mp h)))

theorem digit_not_ws {c : Char} (h : c.isDigit = true) : c.isWhitespace = false := by
  by_contra hw
  rw [Bool.not_eq_false] at hw
  have hc : ((c = ' ' ∨ c = '\t') ∨ c = '\x0d') ∨ c = '\n' := by
    simpa [Char.isWhitespace] using hw
  rcases hc with ((rfl | rfl) | rfl) | rfl <;> exact absurd h (by decide)

theorem splitOnChar_cons (sep c : Char) (cs : List Char) :
    splitOnChar sep (c :: cs) =
      match splitOnChar sep cs with
      | [] => [[]]
      | p :: ps => if c = sep then [] :: p :: ps else (c :: p) :: ps := rfl

theorem splitOnChar_ne_nil (sep : Char) (l : List Char) :
    ∃ p ps, splitOnChar sep l = p :: ps := by
  cases l with
  | nil => exact ⟨[], [], rfl⟩
  | cons c cs =>
    obtain ⟨p, ps, hp⟩ := splitOnChar_ne_nil sep cs
    rw [splitOnChar_cons, hp]
    by_cases hc : c = sep
    · exact ⟨[], p :: ps, by simp [hc]⟩
    · exact ⟨c :: p, ps, by simp [hc]⟩

theorem splitOnChar_of_not_mem {sep : Char} {l : List Char} (h : sep ∉ l) :
    splitOnChar sep l = [l] := by
  induction l with
  | nil => rfl
  | cons c cs ih =>
    have hc : ¬ c = sep := fun hcc => h (hcc ▸ List.mem_cons_self c cs)
    have hcs : sep ∉ cs := fun hm => h (List.mem_cons_of_mem c hm)
    rw [splitOnChar_cons, ih hcs]
    simp [hc]

theorem splitOnChar_append {sep : Char} {l r : List Char} (h : sep ∉ l) :
    splitOnChar sep (l ++ sep :: r) = l :: splitOnChar sep r := by
  induction l with
  | nil =>
    obtain ⟨p, ps, hp⟩ := splitOnChar_ne_nil sep r
    rw [List.nil_append, splitOnChar_cons, hp]
    simp [← hp]
  | cons c cs ih =>
    have hc : ¬ c = sep := fun hcc => h (hcc ▸ List.mem_cons_self c cs)
    have hcs : sep ∉ cs := fun hm => h (List.mem_cons_of_mem c hm)
    rw [List.cons_append, splitOnChar_cons, ih hcs]
    simp [hc]

theorem mem_of_mem_splitOnChar {sep : Char} {l part : List Char} {c : Char}
    (hp : part ∈ splitOnChar sep l) (hc : c ∈ part) : c ∈ l := by
  induction l generalizing part with
  | nil =>
    replace hp : part ∈ [([] : List Char)] := hp
    simp only [List.mem_singleton] at hp
    subst hp
    cases hc
  | cons a t ih =>
    obtain ⟨p, ps, hps⟩ := splitOnChar_ne_nil sep t
    rw [splitOnChar_cons, hps] at hp
    replace hp : part ∈ (if a = sep then [] :: p :: ps else (a :: p) :: ps) := hp
    by_cases ha : a = sep
    · rw [if_pos ha] at hp
      rcases List.mem_cons.mp hp with rfl | hp2
      · cases hc
      · exact List.mem_cons_of_mem a (ih (hps.symm ▸ hp2) hc)
    · rw [if_neg ha] at hp
      rcases List.mem_cons.mp hp with rfl | hp2
      · rcases List.mem_cons.mp hc with rfl | hcp
        · exact List.mem_cons_self _ t
        · exact List.mem_cons_of_mem a (ih (hps.symm ▸ List.mem_cons_self p ps) hcp)
      · exact List.mem_cons_of_mem a (ih (hps.symm ▸ List.mem_cons_of_mem p hp2) hc)

/-! ## Lemmas about `parseFloat` -/

theorem parseUnsigned_digits {l : List Char} (hne : l ≠ [])
    (hd : ∀ c ∈ l, c.isDigit = true) : parseUnsigned l = some ((digitsVal l : ℚ)) := by
  have hdot : '.' ∉ l := fun hm => absurd (hd '.' hm) (by decide)
  have hemp : l.isEmpty = false := by cases l with
    | nil => exact absurd rfl hne
    | cons a t => rfl
  have hall : l.all Char.isDigit = true := List.all_eq_true.mpr hd
  unfold parseUnsigned
  rw [splitOnChar_of_not_mem hdot]
  show (if !l.isEmpty && l.all Char.isDigit then some ((digitsVal l : ℚ)) else none) = _
  rw [hemp, hall]
  rfl

theorem parseFloat_digits {l : List Char} (hne : l ≠ [])
    (hd : ∀ c ∈ l, c.isDigit = true) : parseFloat l = some ((digitsVal l : ℚ)) := by
  have hst : stripChars l = l := stripChars_eq_self (fun c hc => digit_not_ws (hd c hc))
  unfold parseFloat
  rw [hst]
  cases l with
  | nil => exact absurd rfl hne
  | cons c cs =>
    have hcd := hd c (List.mem_cons_self c cs)
    have hcm : ¬ c = '-' := fun h => absurd (h ▸ hcd) (by decide)
    have hcp : ¬ c = '+' := fun h => absurd (h ▸ hcd) (by decide)
    show (if c = '-' then _ else if c = '+' then _ else parseUnsigned (c :: cs)) = _
    rw [if_neg hcm, if_neg hcp]
    exact parseUnsigned_digits hne hd

theorem parseUnsigned_some_has_digit {l : List Char} {v : ℚ}
    (h : parseUnsigned l = some v) : ∃ c ∈ l, c.isDigit = true := by
  unfold parseUnsigned at h
  split at h
  · next ip heq =>
    split at h
    · next hcond =>
      rw [Bool.and_eq_true, Bool.not_eq_eq_eq_not, Bool.not_true,
        List.isEmpty_eq_false] at hcond
      obtain ⟨hne, hall⟩ := hcond
      obtain ⟨a, ha⟩ := List.exists_mem_of_ne_nil ip hne
      exact ⟨a, mem_of_mem_splitOnChar (heq.symm ▸ List.mem_cons_self ip []) ha,
        List.all_eq_true.mp hall a ha⟩
    · exact absurd h (by simp)
  · next ip fp heq =>
    split at h
    · next hcond =>
      rw [Bool.and_eq_true, Bool.and_eq_true, Bool.or_eq_true, Bool.not_eq_eq_eq_not,
        Bool.not_true, Bool.not_eq_eq_eq_not, Bool.not_true, List.isEmpty_eq_false,
        List.isEmpty_eq_false] at hcond
      obtain ⟨⟨hne, hip⟩, hfp⟩ := hcond
      rcases hne with hne | hne
      · obtain ⟨a, ha⟩ := List.exists_mem_of_ne_nil ip hne
        exact ⟨a, mem_of_mem_splitOnChar (heq.symm ▸ List.mem_cons_self ip [fp]) ha,
          List.all_eq_true.mp hip a ha⟩
      · obtain ⟨a, ha⟩ := List.exists_mem_of_ne_nil fp hne
        exact ⟨a, mem_of_mem_splitOnChar
          (heq.symm ▸ List.mem_cons_of_mem ip (List.mem_cons_self fp [])) ha,
          List.all_eq_true.mp hfp a ha⟩
    · exact absurd h (by simp)
  · exact absurd h (by simp)

theorem parseFloat_some_has_digit {l : List Char} {v : ℚ}
    (h : parseFloat l = some v) : ∃ c ∈ l, c.isDigit = true := by
  unfold parseFloat at h
  split at h
  · exact absurd h (by simp)
  · next c r heq =>
    have hsub : ∀ a, a ∈ c :: r → a ∈ l := fun a ha => mem_stripChars (heq ▸ ha)
    split at h
    · obtain ⟨w, hw, -⟩ := Option.map_eq_some'.mp h
      obtain ⟨a, ha, had⟩ := parseUnsigned_some_has_digit hw
      exact ⟨a, hsub a (List.mem_cons_of_mem c ha), had⟩
    · split at h
      · obtain ⟨a, ha, had⟩ := parseUnsigned_some_has_digit h
        exact ⟨a, hsub a (List.mem_cons_of_mem c ha), had⟩
      · obtain ⟨a, ha, had⟩ := parseUnsigned_some_has_digit h
        exact ⟨a, hsub a ha, had⟩

/-! ## The range-selector grammar (claims about `_matches_age_range` and
`_matches_size_range`) -/

theorem rangeMatchesCore_sign {x : ℚ} (s : List Char) {c : Char}
    (hc : c = '+' ∨ c = '-') :
    rangeMatchesCore x (s ++ [c]) =
      match parseFloat s with
      | none => .error ()
      | some mn => .ok (decide (mn ≤ x)) := by
  unfold rangeMatchesCore
  rw [List.getLast?_concat, List.dropLast_concat]
  rcases hc with rfl | rfl
  · rw [if_pos (Or.inl rfl)]
  · rw [if_pos (Or.inr rfl)]

theorem rangeMatchesCore_minmax {x : ℚ} {s1 s2 : List Char}
    (hm1 : '-' ∉ s1) (hne2 : s2 ≠ []) (hm2 : '-' ∉ s2)
    (hlast : ∀ cl, s2.getLast? = some cl → ¬(cl = '+' ∨ cl = '-')) :
    rangeMatchesCore x (s1 ++ '-' :: s2) =
      match parseFloat s1 with
      | none => .ok false
      | some mn =>
        match parseFloat s2 with
        | none => .ok false
        | some mx => .ok (decide (mn ≤ x ∧ x < mx)) := by
  obtain ⟨d, ds, rfl⟩ : ∃ d ds, s2 = d :: ds := by
    cases s2 with
    | nil => exact absurd rfl hne2
    | cons d ds => exact ⟨d, ds, rfl⟩
  have hg : (s1 ++ '-' :: d :: ds).getLast? = (d :: ds).getLast? := by
    rw [List.getLast?_append_of_ne_nil _ (by simp), List.getLast?_cons_cons]
  obtain ⟨cl, hcl⟩ : ∃ cl, (d :: ds).getLast? = some cl :=
    ⟨_, List.getLast?_eq_getLast _ (by simp)⟩
  have hno := hlast cl hcl
  unfold rangeMatchesCore
  rw [hg, hcl, if_neg (by
    intro hor
    rcases hor with h | h
    · exact hno (Or.inl (Option.some_inj.mp h))
    · exact hno (Or.inr (Option.some_inj.mp h)))]
  rw [if_pos (List.mem_append_right s1 (List.mem_cons_self '-' (d :: ds))),
    splitOnChar_append hm1, splitOnChar_of_not_mem hm2]

theorem rangeMatchesCore_no_digit {x : ℚ} {r : List Char}
    (h : ∀ c ∈ r, c.isDigit = false) {b : Bool}
    (hb : rangeMatchesCore x r = .ok b) : b = false := by
  unfold rangeMatchesCore at hb
  split at hb
  · split at hb
    · exact absurd hb (by simp)
    · next mn hmn =>
      obtain ⟨a, ha, had⟩ := parseFloat_some_has_digit hmn
      rw [h a ((List.dropLast_sublist r).mem ha)] at had
      cases had
  · split at hb
    · split at hb
      · next pa pb heq =>
        have hpa : pa ∈ splitOnChar '-' r := heq.symm ▸ List.mem_cons_self pa [pb]
        have hpb : pb ∈ splitOnChar '-' r :=
          heq.symm ▸ List.mem_cons_of_mem pa (List.mem_cons_self pb [])
        split at hb
        · exact (Except.ok.inj hb).symm
        · next mn hmn =>
          obtain ⟨a, ha, had⟩ := parseFloat_some_has_digit hmn
          rw [h a (mem_of_mem_splitOnChar hpa ha)] at had
          cases had
      · exact (Except.ok.inj hb).symm
    · exact (Except.ok.inj hb).symm

theorem stripChars_digits_append {s1 s2 : List Char} {c : Char}
    (hd1 : ∀ ch ∈ s1, ch.isDigit = true) (hd2 : ∀ ch ∈ s2, ch.isDigit = true)
    (hc : c = '+' ∨ c = '-') :
    stripChars (s1 ++ c :: s2) = s1 ++ c :: s2 := by
  apply stripChars_eq_self
  intro ch hch
  rcases List.mem_append.mp hch with hch | hch
  · exact digit_not_ws (hd1 ch hch)
  · rcases List.mem_cons.mp hch with rfl | hch
    · rcases hc with rfl | rfl <;> decide
    · exact digit_not_ws (hd2 ch hch)

theorem matchesRange_minmax (x : ℚ) {s1 s2 : List Char}
    (h1 : s1 ≠ [] ∧ ∀ c ∈ s1, c.isDigit = true)
    (h2 : s2 ≠ [] ∧ ∀ c ∈ s2, c.isDigit = true) :
    rangeMatches x (s1 ++ '-' :: s2) =
      .ok (decide ((digitsVal s1 : ℚ) ≤ x ∧ x < (digitsVal s2 : ℚ))) := by
  obtain ⟨hne1, hd1⟩ := h1
  obtain ⟨hne2, hd2⟩ := h2
  have hm1 : '-' ∉ s1 := fun hm => absurd (hd1 '-' hm) (by decide)
  have hm2 : '-' ∉ s2 := fun hm => absurd (hd2 '-' hm) (by decide)
  have hlast : ∀ cl, s2.getLast? = some cl → ¬(cl = '+' ∨ cl = '-') := by
    intro cl hcl hor
    have hmem := List.mem_of_getLast?_eq_some hcl
    rcases hor with rfl | rfl
    · exact absurd (hd2 '+' hmem) (by decide)
    · exact absurd (hd2 '-' hmem) (by decide)
  unfold rangeMatches
  rw [stripChars_digits_append hd1 hd2 (Or.inr rfl),
    rangeMatchesCore_minmax hm1 hne2 hm2 hlast,
    parseFloat_digits hne1 hd1, parseFloat_digits hne2 hd2]

theorem matchesRange_ge (x : ℚ) {s1 : List Char} {c : Char} (hc : c = '+' ∨ c = '-')
    (h1 : s1 ≠ [] ∧ ∀ ch ∈ s1, ch.isDigit = true) :
    rangeMatches x (s1 ++ [c]) = .ok (decide ((digitsVal s1 : ℚ) ≤ x)) := by
  obtain ⟨hne1, hd1⟩ := h1
  unfold rangeMatches
  rw [show s1 ++ [c] = s1 ++ c :: [] from rfl,
    stripChars_digits_append hd1 (fun ch hch => absurd hch (List.not_mem_nil ch)) hc,
    rangeMatchesCore_sign s1 hc, parseFloat_digits hne1 hd1]

theorem matchesRange_no_digit (x : ℚ) {r : List Char}
    (h : ∀ c ∈ r, c.isDigit = false) {b : Bool}
    (hb : rangeMatches x r = .ok b) : b = false := by
  unfold rangeMatches at hb
  exact rangeMatchesCore_no_digit (fun c hc => h c (mem_stripChars hc)) hb

theorem matchesRange_sign_malformed (x : ℚ) {s : List Char} {c : Char}
    (hc : c = '+' ∨ c = '-') (hws : ∀ ch ∈ s, ch.isWhitespace = false)
    (hbad : parseFloat s = none) :
    rangeMatches x (s ++ [c]) = .error () := by
  have hstrip : stripChars (s ++ [c]) = s ++ [c] := by
    apply stripChars_eq_self
    intro ch hch
    rcases List.mem_append.mp hch with hch | hch
    · exact hws ch hch
    · rw [List.mem_singleton.mp hch]
      rcases hc with rfl | rfl <;> decide
  unfold rangeMatches
  rw [hstrip, rangeMatchesCore_sign s hc, hbad]

theorem matchesRange_minmax_malformed (x : ℚ) {s1 s2 : List Char}
    (hws1 : ∀ c ∈ s1, c.isWhitespace = false) (hm1 : '-' ∉ s1)
    (hne2 : s2 ≠ []) (hm2 : '-' ∉ s2) (hws2 : ∀ c ∈ s2, c.isWhitespace = false)
    (hlast : ∀ cl, s2.getLast? = some cl → ¬(cl = '+' ∨ cl = '-'))
    (hbad : parseFloat s1 = none) :
    rangeMatches x (s1 ++ '-' :: s2) = .ok false := by
  have hstrip : stripChars (s1 ++ '-' :: s2) = s1 ++ '-' :: s2 := by
    apply stripChars_eq_self
    intro ch hch
    rcases List.mem_append.mp hch with hch | hch
    · exact hws1 ch hch
    · rcases List.mem_cons.mp hch with rfl | hch
      · decide
      · exact hws2 ch hch
  unfold rangeMatches
  rw [hstrip, rangeMatchesCore_minmax hm1 hne2 hm2 hlast, hbad]

/-! ## Lemmas about `weighted_random_sample` -/

theorem scanPick_some {r : ℚ} : ∀ {ws : List ℚ} {cum : ℚ} {i j : Nat},
    scanPick r ws cum i = some j → ∃ j0, j = i + j0 ∧ j0 < ws.length := by
  intro ws
  induction ws with
  | nil => intro cum i j h; cases h
  | cons w ws ih =>
    intro cum i j h
    unfold scanPick at h
    split at h
    · refine ⟨0, ?_, by simp⟩
      have hj := Option.some_inj.mp h
      omega
    · obtain ⟨j0, rfl, hj0⟩ := ih h
      refine ⟨j0 + 1, by omega, ?_⟩
      simp only [List.length_cons]
      omega

theorem randintDraw_lt {u : ℚ} {n : Nat} (hn : 0 < n) : randintDraw u n < n := by
  unfold randintDraw
  omega

theorem sampleIdx_lt_of_scan {u : ℚ} {n : Nat} {weights : List ℚ} (hn : 0 < n)
    (hsum : weights.sum ≠ 0) (hle : weights.length ≤ n) :
    sampleIdx u n weights < n ∧ sampleIdx u n weights < weights.length := by
  have hwne : weights ≠ [] := fun h => hsum (h ▸ rfl)
  have hwlen : 0 < weights.length := List.length_pos.mpr hwne
  unfold sampleIdx
  rw [if_neg hsum]
  cases hscan : scanPick (uniformDraw u weights.sum) weights 0 0 with
  | none => exact ⟨hn, hwlen⟩
  | some j =>
    obtain ⟨j0, rfl, hj0⟩ := scanPick_some hscan
    simp only [Option.getD_some]
    omega

theorem sampleIdx_lt {u : ℚ} {n : Nat} {weights : List ℚ} (hn : 0 < n)
    (hlen : weights.length = n) :
    sampleIdx u n weights < n ∧ sampleIdx u n weights < weights.length := by
  by_cases hsum : weights.sum = 0
  · have h1 : sampleIdx u n weights < n := by
      unfold sampleIdx
      rw [if_pos hsum]
      exact randintDraw_lt hn
    exact ⟨h1, hlen ▸ h1⟩
  · exact sampleIdx_lt_of_scan hn hsum (le_of_eq hlen)

theorem wrs_cons_eq {α : Type} (u : Nat → ℚ) (step : Nat) (f : α) (fs : List α)
    (weights : List ℚ) (k : Nat)
    (h1 : sampleIdx (u step) (f :: fs).length weights < (f :: fs).length)
    (h2 : sampleIdx (u step) (f :: fs).length weights < weights.length)
    {l : List α}
    (hrec : weighted_random_sample u (step + 1)
        ((f :: fs).eraseIdx (sampleIdx (u step) (f :: fs).length weights))
        (weights.eraseIdx (sampleIdx (u step) (f :: fs).length weights)) k = .ok l) :
    weighted_random_sample u step (f :: fs) weights (k + 1) =
      .ok ((f :: fs).get ⟨sampleIdx (u step) (f :: fs).length weights, h1⟩ :: l) := by
  unfold weighted_random_sample
  rw [dif_pos ⟨h1, h2⟩, hrec]

theorem get_cons_eraseIdx_perm {α : Type} :
    ∀ (l : List α) (i : Nat) (h : i < l.length), List.Perm (l.get ⟨i, h⟩ :: l.eraseIdx i) l
  | a :: t, 0, _ => List.Perm.refl (a :: t)
  | a :: t, i + 1, h => by
    have ih := get_cons_eraseIdx_perm t i (by simpa using h)
    show List.Perm (t.get ⟨i, _⟩ :: a :: t.eraseIdx i) (a :: t)
    exact (List.Perm.swap a (t.get ⟨i, by simpa using h⟩) (t.eraseIdx i)).trans (ih.cons a)

theorem wrs_zero {α : Type} (u : Nat → ℚ) (step : Nat) (files : List α) (weights : List ℚ) :
    weighted_random_sample u step files weights 0 = .ok [] := by
  cases files <;> rfl

theorem wrs_spec {α : Type} (u : Nat → ℚ) :
    ∀ (k step : Nat) (files : List α) (weights : List ℚ),
      weights.length = files.length →
      ∃ l, weighted_random_sample u step files weights k = .ok l ∧
        l.length = min k files.length ∧
        (∀ x ∈ l, x ∈ files) ∧
        (files.Nodup → l.Nodup) ∧
        (files.length ≤ k → List.Perm l files)
  | 0, step, files, weights, _ =>
    ⟨[], wrs_zero u step files weights, by simp, by simp, fun _ => List.nodup_nil, fun h => by
      rw [List.length_eq_zero.mp (Nat.le_zero.mp h)]⟩
  | k + 1, step, [], weights, _ =>
    ⟨[], rfl, by simp, by simp, fun _ => List.nodup_nil, fun _ => List.Perm.refl []⟩
  | k + 1, step, f :: fs, weights, hlen => by
    have hn : 0 < (f :: fs).length := by simp
    obtain ⟨hi1, hi2⟩ := @sampleIdx_lt (u step) (f :: fs).length weights hn hlen
    have hlen2 : (weights.eraseIdx (sampleIdx (u step) (f :: fs).length weights)).length =
        ((f :: fs).eraseIdx (sampleIdx (u step) (f :: fs).length weights)).length := by
      rw [List.length_eraseIdx_of_lt hi2, List.length_eraseIdx_of_lt hi1, hlen]
    obtain ⟨l, hl, hlength, hmem, hnodup, hperm⟩ :=
      wrs_spec u k (step + 1) ((f :: fs).eraseIdx (sampleIdx (u step) (f :: fs).length weights))
        (weights.eraseIdx (sampleIdx (u step) (f :: fs).length weights)) hlen2
    have hperm0 := get_cons_eraseIdx_perm (f :: fs) (sampleIdx (u step) (f :: fs).length weights) hi1
    refine ⟨(f :: fs).get ⟨sampleIdx (u step) (f :: fs).length weights, hi1⟩ :: l,
      wrs_cons_eq u step f fs weights k hi1 hi2 hl, ?_, ?_, ?_, ?_⟩
    · rw [List.length_cons, hlength, List.length_eraseIdx_of_lt hi1]
      have := hn
      omega
    · intro x hx
      rcases List.mem_cons.mp hx with rfl | hx
      · exact List.get_mem _ _ _
      · exact (List.eraseIdx_sublist _ _).mem (hmem x hx)
    · intro hnd
      have hnd2 := (hperm0.nodup_iff).mpr hnd
      rw [List.nodup_cons] at hnd2
      obtain ⟨hni, hne⟩ := hnd2
      rw [List.nodup_cons]
      exact ⟨fun hmem2 => hni (hmem _ hmem2), hnodup hne⟩
    · intro hle
      have hlee : ((f :: fs).eraseIdx (sampleIdx (u step) (f :: fs).length weights)).length ≤ k := by
        rw [List.length_eraseIdx_of_lt hi1]
        simp only [List.length_cons] at hle ⊢
        omega
      exact ((hperm hlee).cons _).trans hperm0

theorem zip_eraseIdx {α : Type} :
    ∀ (l1 : List α) (l2 : List ℚ) (i : Nat),
      (l1.eraseIdx i).zip (l2.eraseIdx i) = (l1.zip l2).eraseIdx i
  | [], l2, i => by simp [List.eraseIdx]
  | a :: t1, [], i => by simp [List.eraseIdx]
  | a :: t1, b :: t2, 0 => rfl
  | a :: t1, b :: t2, i + 1 => by
    show ((a :: t1.eraseIdx i).zip (b :: t2.eraseIdx i)) = (a, b) :: (t1.zip t2).eraseIdx i
    rw [List.zip_cons_cons, zip_eraseIdx t1 t2 i]

theorem scanPick_pos {r : ℚ} :
    ∀ {ws : List ℚ} {cum : ℚ} {i : Nat},
      (∀ w ∈ ws, 0 ≤ w) → cum < r → r ≤ cum + ws.sum →
      ∃ j0, ∃ hj : j0 < ws.length,
        scanPick r ws cum i = some (i + j0) ∧ 0 < ws.get ⟨j0, hj⟩ := by
  intro ws
  induction ws with
  | nil =>
    intro cum i _ hlt hle
    rw [List.sum_nil, add_zero] at hle
    exact absurd (lt_of_lt_of_le hlt hle) (lt_irrefl cum)
  | cons w ws ih =>
    intro cum i hnn hlt hle
    by_cases hbr : r ≤ cum + w
    · refine ⟨0, by simp, ?_, ?_⟩
      · unfold scanPick
        rw [if_pos hbr, Nat.add_zero]
      · show (0 : ℚ) < w
        have := lt_of_lt_of_le hlt hbr
        linarith
    · have hnn2 : ∀ v ∈ ws, 0 ≤ v := fun v hv => hnn v (List.mem_cons_of_mem w hv)
      have hlt2 : cum + w < r := lt_of_not_le hbr
      have hle2 : r ≤ (cum + w) + ws.sum := by
        rw [List.sum_cons] at hle
        linarith
      obtain ⟨j0, hj, hscan, hpos⟩ := ih hnn2 hlt2 hle2
      refine ⟨j0 + 1, by simpa using Nat.succ_lt_succ hj, ?_, hpos⟩
      unfold scanPick
      rw [if_neg hbr, hscan]
      congr 1
      omega

theorem sum_pos_of_countP_pos {ws : List ℚ} (hnn : ∀ w ∈ ws, 0 ≤ w)
    (hc : 0 < ws.countP (fun w => decide (0 < w))) : 0 < ws.sum := by
  obtain ⟨w, hw, hwp⟩ := List.countP_pos_iff.mp hc
  have hwpos : (0 : ℚ) < w := of_decide_eq_true hwp
  have hle : w ≤ ws.sum := List.single_le_sum hnn w hw
  linarith

theorem wrs_pos_spec {α : Type} (u : Nat → ℚ) (hu : ∀ n, 0 < u n ∧ u n ≤ 1) :
    ∀ (k step : Nat) (files : List α) (weights : List ℚ),
      weights.length = files.length →
      (∀ w ∈ weights, 0 ≤ w) →
      k ≤ weights.countP (fun w => decide (0 < w)) →
      ∃ l, weighted_random_sample u step files weights k = .ok l ∧
        ∀ x ∈ l, ∃ p ∈ files.zip weights, p.1 = x ∧ 0 < p.2
  | 0, step, files, weights, _, _, _ =>
    ⟨[], wrs_zero u step files weights, by simp⟩
  | k + 1, step, [], weights, _, _, _ =>
    ⟨[], rfl, by simp⟩
  | k + 1, step, f :: fs, weights, hlen, hnn, hcount => by
    have hcpos : 0 < weights.countP (fun w => decide (0 < w)) := by omega
    have hsumpos : 0 < weights.sum := sum_pos_of_countP_pos hnn hcpos
    have hsum : weights.sum ≠ 0 := ne_of_gt hsumpos
    have hrpos : 0 < uniformDraw (u step) weights.sum :=
      mul_pos (hu step).1 hsumpos
    have hrle : uniformDraw (u step) weights.sum ≤ 0 + weights.sum := by
      rw [zero_add]
      calc u step * weights.sum ≤ 1 * weights.sum :=
            mul_le_mul_of_nonneg_right (hu step).2 (le_of_lt hsumpos)
        _ = weights.sum := one_mul _
    obtain ⟨j0, hj, hscan, hpos⟩ :=
      @scanPick_pos (uniformDraw (u step) weights.sum) weights 0 0 hnn hrpos hrle
    have hidx : sampleIdx (u step) (f :: fs).length weights = j0 := by
      unfold sampleIdx
      rw [if_neg hsum, hscan]
      simp
    have hi2 : sampleIdx (u step) (f :: fs).length weights < weights.length := hidx ▸ hj
    have hi1 : sampleIdx (u step) (f :: fs).length weights < (f :: fs).length :=
      hlen ▸ hi2
    have hlen2 : (weights.eraseIdx (sampleIdx (u step) (f :: fs).length weights)).length =
        ((f :: fs).eraseIdx (sampleIdx (u step) (f :: fs).length weights)).length := by
      rw [List.length_eraseIdx_of_lt hi2, List.length_eraseIdx_of_lt hi1, hlen]
    have hnn2 : ∀ w ∈ weights.eraseIdx (sampleIdx (u step) (f :: fs).length weights), 0 ≤ w :=
      fun w hw => hnn w ((List.eraseIdx_sublist _ _).mem hw)
    have hcount2 : k ≤ (weights.eraseIdx (sampleIdx (u step) (f :: fs).length weights)).countP
        (fun w => decide (0 < w)) := by
      have hpermw := get_cons_eraseIdx_perm weights
        (sampleIdx (u step) (f :: fs).length weights) hi2
      have hcp := hpermw.countP_eq (fun w => decide (0 < w))
      rw [List.countP_cons] at hcp
      have hget : decide (0 < weights.get ⟨sampleIdx (u step) (f :: fs).length weights, hi2⟩)
          = true := decide_eq_true (hidx ▸ hpos)
      rw [hget] at hcp
      simp only [if_true, if_pos trivial] at hcp
      omega
    obtain ⟨l, hl, hprop⟩ :=
      wrs_pos_spec u hu k (step + 1)
        ((f :: fs).eraseIdx (sampleIdx (u step) (f :: fs).length weights))
        (weights.eraseIdx (sampleIdx (u step) (f :: fs).length weights)) hlen2 hnn2 hcount2
    refine ⟨(f :: fs).get ⟨sampleIdx (u step) (f :: fs).length weights, hi1⟩ :: l,
      wrs_cons_eq u step f fs weights k hi1 hi2 hl, ?_⟩
    intro x hx
    rcases List.mem_cons.mp hx with rfl | hx
    · refine ⟨((f :: fs).get ⟨sampleIdx (u step) (f :: fs).length weights, hi1⟩,
        weights.get ⟨sampleIdx (u step) (f :: fs).length weights, hi2⟩), ?_, rfl, hidx ▸ hpos⟩
      have hzlen : sampleIdx (u step) (f :: fs).length weights < ((f :: fs).zip weights).length := by
        rw [List.length_zip]
        omega
      have hzip : ((f :: fs).zip weights).get ⟨sampleIdx (u step) (f :: fs).length weights, hzlen⟩ =
          ((f :: fs).get ⟨sampleIdx (u step) (f :: fs).length weights, hi1⟩,
           weights.get ⟨sampleIdx (u step) (f :: fs).length weights, hi2⟩) := by
        simp [List.get_eq_getElem, List.getElem_zip]
      exact hzip ▸ List.get_mem _ _ _
    · obtain ⟨p, hp, hpx, hppos⟩ := hprop x hx
      rw [zip_eraseIdx] at hp
      exact ⟨p, (List.eraseIdx_sublist _ _).mem hp, hpx, hppos⟩

theorem wrs_one_ok {α : Type} (u : Nat → ℚ) (step : Nat) (files : List α)
    (weights : List ℚ) (hne : files ≠ []) (hsum : weights.sum ≠ 0)
    (hle : weights.length ≤ files.length) :
    ∃ x, x ∈ files ∧ weighted_random_sample u step files weights 1 = .ok [x] := by
  obtain ⟨f, fs, rfl⟩ : ∃ f fs, files = f :: fs := by
    cases files with
    | nil => exact absurd rfl hne
    | cons f fs => exact ⟨f, fs, rfl⟩
  have hn : 0 < (f :: fs).length := by simp
  obtain ⟨hi1, hi2⟩ := @sampleIdx_lt_of_scan (u step) (f :: fs).length weights hn hsum hle
  exact ⟨(f :: fs).get ⟨sampleIdx (u step) (f :: fs).length weights, hi1⟩,
    List.get_mem _ _ _,
    wrs_cons_eq u step f fs weights 0 hi1 hi2 (wrs_zero u (step + 1) _ _)⟩

/-! ## Lemmas about the sampling state machine -/

theorem sampleStep_files {α : Type} [Inhabited α] (u : ℚ) (s : SampleState α) :
    (sampleStep u s).files = s.files := by
  unfold sampleStep
  split <;> rfl

theorem sampleStep_weights {α : Type} [Inhabited α] (u : ℚ) (s : SampleState α) :
    (sampleStep u s).weights = s.weights := by
  unfold sampleStep
  split <;> rfl

theorem runSample_frame {α : Type} [Inhabited α] (u : Nat → ℚ) :
    ∀ (k step : Nat) (s : SampleState α),
      (runSample u step s k).files = s.files ∧ (runSample u step s k).weights = s.weights
  | 0, step, s => ⟨rfl, rfl⟩
  | k + 1, step, s => by
    obtain ⟨h1, h2⟩ := runSample_frame u k (step + 1) (sampleStep (u step) s)
    exact ⟨h1.trans (sampleStep_files (u step) s),
      h2.trans (sampleStep_weights (u step) s)⟩

theorem runSample_selected {α : Type} [Inhabited α] (u : Nat → ℚ) :
    ∀ (k step : Nat) (s : SampleState α) (l : List α),
      s.remaining_weights.length = s.remaining_files.length →
      weighted_random_sample u step s.remaining_files s.remaining_weights k = .ok l →
      (runSample u step s k).selected = s.selected ++ l
  | 0, step, s, l, _, hrun => by
    rw [wrs_zero] at hrun
    rw [← Except.ok.inj hrun]
    exact (List.append_nil s.selected).symm
  | k + 1, step, s, l, hlen, hrun => by
    rcases hrem : s.remaining_files with _ | ⟨f, fs⟩
    · rw [hrem] at hrun
      replace hrun : (Except.ok [] : Except Unit (List α)) = .ok l := hrun
      have hstep : sampleStep (u step) s = s := by
        unfold sampleStep
        rw [hrem]
        rfl
      have hwnil : s.remaining_weights = [] := by
        rw [hrem] at hlen
        exact List.length_eq_zero.mp hlen
      have hrec : weighted_random_sample u (step + 1) s.remaining_files s.remaining_weights k =
          .ok [] := by
        rw [hrem, hwnil]
        cases k <;> rfl
      show (runSample u (step + 1) (sampleStep (u step) s) k).selected = s.selected ++ l
      rw [hstep, runSample_selected u k (step + 1) s [] hlen hrec, ← Except.ok.inj hrun]
    · rw [hrem] at hrun
      unfold weighted_random_sample at hrun
      split at hrun
      · next h12 =>
        obtain ⟨h1, h2⟩ := h12
        split at hrun
        · next rest hrec =>
          replace hrun := Except.ok.inj hrun
          have hstep : sampleStep (u step) s =
              { files := s.files
                weights := s.weights
                remaining_files := s.remaining_files.eraseIdx
                  (sampleIdx (u step) s.remaining_files.length s.remaining_weights)
                remaining_weights := s.remaining_weights.eraseIdx
                  (sampleIdx (u step) s.remaining_files.length s.remaining_weights)
                selected := s.selected ++
                  [s.remaining_files.getD
                    (sampleIdx (u step) s.remaining_files.length s.remaining_weights) default] }
              := by
            unfold sampleStep
            rw [if_neg (by rw [hrem]; simp)]
          have hgd : s.remaining_files.getD
              (sampleIdx (u step) s.remaining_files.length s.remaining_weights) default =
              (f :: fs).getD (sampleIdx (u step) (f :: fs).length s.remaining_weights)
                default := by
            rw [hrem]
          have hlen2 : (sampleStep (u step) s).remaining_weights.length =
              (sampleStep (u step) s).remaining_files.length := by
            rw [hstep]
            show (s.remaining_weights.eraseIdx _).length = (s.remaining_files.eraseIdx _).length
            rw [hrem]
            rw [List.length_eraseIdx_of_lt h2, List.length_eraseIdx_of_lt h1]
            rw [hrem] at hlen
            rw [hlen]
          have hrec2 : weighted_random_sample u (step + 1)
              (sampleStep (u step) s).remaining_files
              (sampleStep (u step) s).remaining_weights k = .ok rest := by
            rw [hstep]
            show weighted_random_sample u (step + 1)
              (s.remaining_files.eraseIdx _) (s.remaining_weights.eraseIdx _) k = .ok rest
            rw [hrem]
            exact hrec
          show (runSample u (step + 1) (sampleStep (u step) s) k).selected = s.selected ++ l
          rw [runSample_selected u k (step + 1) (sampleStep (u step) s) rest hlen2 hrec2,
            hstep]
          show (s.selected ++ [s.remaining_files.getD _ default]) ++ rest = s.selected ++ l
          rw [hgd, ← hrun, List.append_assoc, List.singleton_append]
          congr 2
          rw [List.getD_eq_getElem?_getD, List.getElem?_eq_getElem h1]
          rfl
        · exact absurd hrun (by simp)
      · exact absurd hrun (by simp)

/-! ## Evaluation helpers for `calculate_file_weight` -/

theorem collectedWeights_of_empty {file : FileInfo} {cfg : WeightsConfig} {now : ℚ}
    (h : cfg.isEmptyCfg = true) : collectedWeights file cfg now = [] := by
  unfold WeightsConfig.isEmptyCfg at h
  rw [Bool.and_eq_true, Bool.and_eq_true] at h
  obtain ⟨⟨h1, h2⟩, h3⟩ := h
  unfold collectedWeights extContribution ageContribution sizeContribution
  rw [if_pos h1, if_pos h2, if_pos h3]
  rfl

theorem ageContribution_lookup (file : FileInfo) (st : FileStat)
    (tbl : List (List Char × ℚ)) (now x : ℚ) (hst : file.stat = some st)
    (hne : tbl ≠ []) (hx : (now - st.mtime) / 86400 = x) :
    ageContribution file now tbl =
      match rangeTableLookup x tbl with
      | .error _ => none
      | .ok o => o := by
  unfold ageContribution
  rw [if_neg (by rw [List.isEmpty_eq_false.mpr hne]; exact Bool.false_ne_true), hst]
  show (match rangeTableLookup ((now - st.mtime) / 86400) tbl with
    | .error _ => none | .ok o => o) = _
  rw [hx]

theorem sizeContribution_lookup (file : FileInfo) (st : FileStat)
    (tbl : List (List Char × ℚ)) (x : ℚ) (hst : file.stat = some st)
    (hne : tbl ≠ []) (hx : st.st_size / (1024 * 1024) = x) :
    sizeContribution file tbl =
      match rangeTableLookup x tbl with
      | .error _ => none
      | .ok o => o := by
  unfold sizeContribution
  rw [if_neg (by rw [List.isEmpty_eq_false.mpr hne]; exact Bool.false_ne_true), hst]
  show (match rangeTableLookup (st.st_size / (1024 * 1024)) tbl with
    | .error _ => none | .ok o => o) = _
  rw [hx]

theorem calculate_file_weight_eval (file : FileInfo) (cfg : WeightsConfig) (now : ℚ)
    {l : List ℚ} (hne : cfg.isEmptyCfg = false)
    (hcw : collectedWeights file cfg now = l) :
    calculate_file_weight file cfg now =
      if l = [] then 1/2 else l.sum / (l.length : ℚ) := by
  unfold calculate_file_weight
  rw [if_neg (by rw [hne]; exact Bool.false_ne_true), hcw]

/-! ## Concrete runs shared by several claim settlements -/

theorem lookup_scenario_15 :
    rangeTableLookup 15
      [("0-7".toList, 1/5), ("7-30".toList, 1/2), ("30+".toList, 9/10)] =
      .ok (some (1/2)) := rfl

theorem lookup_scenario_60 :
    rangeTableLookup 60
      [("0-7".toList, 1/5), ("7-30".toList, 1/2), ("30+".toList, 9/10)] =
      .ok (some (9/10)) := rfl

theorem lookup_abc_15 :
    rangeTableLookup 15 [("abc+".toList, 9/10), ("0-100".toList, 7/10)] =
      .error () := rfl

theorem lookup_xy_15 :
    rangeTableLookup 15 [("x-y".toList, 9/10), ("0-100".toList, 7/10)] =
      .ok (some (7/10)) := rfl

/-- The collected contributions for a configuration with only an age
sub-table, a file whose stat succeeds with `mtime = 0`, and reference time
`now = d * 86400` (an age of `d` days). -/
theorem collectedWeights_age_only (tbl : List (List Char × ℚ)) (hne : tbl ≠ [])
    (d : ℚ) {r : Except Unit (Option ℚ)} (hlook : rangeTableLookup d tbl = r) :
    collectedWeights ⟨[], some ⟨0, 0⟩⟩ ⟨[], tbl, []⟩ (d * 86400) =
      [Option.none, match r with | .error _ => none | .ok o => o, Option.none].filterMap id := by
  unfold collectedWeights
  rw [ageContribution_lookup ⟨[], some ⟨0, 0⟩⟩ ⟨0, 0⟩ tbl (d * 86400) d rfl hne
    (by norm_num), hlook]
  rfl

theorem oneStream_bounds : ∀ n, 0 < oneStream n ∧ oneStream n ≤ 1 :=
  fun _ => ⟨by norm_num [oneStream], by norm_num [oneStream]⟩

/-! ## Claim theorems -/

/-- C1: for all parallel `items`/`weights` lists of the same length with
weights in [0,1], every `k ≥ 0` and every random stream,
`weighted_random_sample` returns normally (`.ok`, never an exception — and
the Lean model is total, so the loop always terminates) with exactly
`min k (number of items)` elements, each drawn from the input list,
pairwise distinct whenever the input items are distinct; when `k` reaches
the pool size the result is the whole pool up to order.  The hypotheses
admit the all-zero weights case, which is served by the uniform fallback. -/
theorem C1_sample_count_membership_distinct {α : Type} (u : Nat → ℚ) (step k : Nat)
    (files : List α) (weights : List ℚ)
    (hlen : weights.length = files.length)
    (_hw : ∀ w ∈ weights, 0 ≤ w ∧ w ≤ 1) :
    ∃ l, weighted_random_sample u step files weights k = .ok l ∧
      l.length = min k files.length ∧
      (∀ x ∈ l, x ∈ files) ∧
      (files.Nodup → l.Nodup) ∧
      (files.length ≤ k → List.Perm l files) :=
  wrs_spec u k step files weights hlen

/-- C1 witness: items `[0,1,2]`, all-zero weights, `k = 5 >` pool size. -/
theorem C1_witness :
    ∃ l, weighted_random_sample oneStream 0 [(0 : Nat), 1, 2] [0, 0, 0] 5 = .ok l ∧
      l.length = min 5 [(0 : Nat), 1, 2].length ∧
      (∀ x ∈ l, x ∈ [(0 : Nat), 1, 2]) ∧
      ([(0 : Nat), 1, 2].Nodup → l.Nodup) ∧
      ([(0 : Nat), 1, 2].length ≤ 5 → List.Perm l [(0 : Nat), 1, 2]) :=
  C1_sample_count_membership_distinct oneStream 0 5 [0, 1, 2] [0, 0, 0] rfl (by decide)

/-- C2 counterexample: with the age sub-table
`{"abc+": 0.9, "0-100": 0.7}` and a file aged 15 days, the malformed
selector `"abc+"` raises `ValueError` inside `_matches_age_range` (its
trailing-sign branch calls `float` outside any `try`); the handler in
`calculate_file_weight` catches it and abandons the whole sub-table, so the
later well-formed, matching selector `"0-100"` is never evaluated and the
weight is the 0.5 default — the claim instead requires the sub-table scan
to continue and yield 0.7. -/
theorem C2_counterexample :
    calculate_file_weight ⟨[], some ⟨0, 0⟩⟩
        ⟨[], [("abc+".toList, 9/10), ("0-100".toList, 7/10)], []⟩ (15 * 86400) = 1/2 ∧
      (1 : ℚ)/2 ≠ 7/10 := by
  constructor
  · rw [calculate_file_weight_eval _ _ _ (by decide)
      (collectedWeights_age_only _ (by decide) 15 lookup_abc_15)]
    rfl
  · norm_num

/-- C2 (amended): a malformed selector of the min-max form (e.g. `"x-y"`)
is a plain non-match — the scan of the sub-table continues and a later
well-formed matching selector still contributes (concretely,
`{"x-y": 0.9, "0-100": 0.7}` on a file aged 15 days yields 0.7); but a
malformed selector of the trailing-sign form (e.g. `"abc+"`) raises out of
the range matcher, the error aborts the sub-table scan, and the enclosing
handler makes that whole sub-table contribute nothing. -/
theorem C2_malformed_selector_behavior :
    (∀ (x : ℚ) (sel : List Char) (w : ℚ) (rest : List (List Char × ℚ)),
      rangeMatches x sel = .ok false →
      rangeTableLookup x ((sel, w) :: rest) = rangeTableLookup x rest)
  ∧ (∀ (x : ℚ) (s1 s2 : List Char),
      (∀ c ∈ s1, c.isWhitespace = false) → '-' ∉ s1 → parseFloat s1 = none →
      s2 ≠ [] → '-' ∉ s2 → (∀ c ∈ s2, c.isWhitespace = false) →
      (∀ cl, s2.getLast? = some cl → ¬(cl = '+' ∨ cl = '-')) →
      rangeMatches x (s1 ++ '-' :: s2) = .ok false)
  ∧ (∀ (x : ℚ) (s : List Char) (c : Char), (c = '+' ∨ c = '-') →
      (∀ ch ∈ s, ch.isWhitespace = false) → parseFloat s = none →
      rangeMatches x (s ++ [c]) = .error ())
  ∧ (∀ (x : ℚ) (sel : List Char) (w : ℚ) (rest : List (List Char × ℚ)),
      rangeMatches x sel = .error () →
      rangeTableLookup x ((sel, w) :: rest) = .error ())
  ∧ (∀ (file : FileInfo) (st : FileStat) (now : ℚ) (tbl : List (List Char × ℚ)),
      file.stat = some st → tbl ≠ [] →
      rangeTableLookup ((now - st.mtime) / 86400) tbl = .error () →
      ageContribution file now tbl = none)
  ∧ calculate_file_weight ⟨[], some ⟨0, 0⟩⟩
      ⟨[], [("x-y".toList, 9/10), ("0-100".toList, 7/10)], []⟩ (15 * 86400) = 7/10 := by
  refine ⟨?_, ?_, ?_, ?_, ?_, ?_⟩
  · intro x sel w rest h
    show (match rangeMatches x sel with
      | Except.error e => Except.error e
      | Except.ok true => Except.ok (some w)
      | Except.ok false => rangeTableLookup x rest) = rangeTableLookup x rest
    rw [h]
  · intro x s1 s2 hws1 hm1 hbad hne2 hm2 hws2 hlast
    exact matchesRange_minmax_malformed x hws1 hm1 hne2 hm2 hws2 hlast hbad
  · intro x s c hc hws hbad
    exact matchesRange_sign_malformed x hc hws hbad
  · intro x sel w rest h
    show (match rangeMatches x sel with
      | Except.error e => Except.error e
      | Except.ok true => Except.ok (some w)
      | Except.ok false => rangeTableLookup x rest) = Except.error ()
    rw [h]
  · intro file st now tbl hst hne hlook
    rw [ageContribution_lookup file st tbl now _ hst hne rfl, hlook]
  · rw [calculate_file_weight_eval _ _ _ (by decide)
      (collectedWeights_age_only _ (by decide) 15 lookup_xy_15)]
    show (if [(7 : ℚ)/10] = [] then 1/2 else ([(7 : ℚ)/10]).sum / 1) = 7/10
    rw [if_neg (by simp)]
    norm_num

/-- C2 witness: the surviving half of the claim, applied concretely — a
`"x-y"`-form non-match lets the scan continue. -/
theorem C2_witness :
    rangeTableLookup 15 (("x-y".toList, (9 : ℚ)/10) :: [("0-100".toList, (7 : ℚ)/10)]) =
      rangeTableLookup 15 [("0-100".toList, (7 : ℚ)/10)] :=
  C2_malformed_selector_behavior.1 15 "x-y".toList (9/10) [("0-100".toList, 7/10)] rfl

/-- C3: `calculate_file_weight` returns exactly 0.5 when the configuration
is empty, and 0.5 when no sub-table produced a contribution; otherwise it
returns the arithmetic mean of the collected contributions (one per
matching sub-table).  Concretely, a single extension match of 0.9 yields
exactly 0.9, and age/size matches of 0.5 and 0.7 yield 0.6 within 1e-9. -/
theorem C3_weight_default_and_mean (file : FileInfo) (cfg : WeightsConfig) (now : ℚ) :
    (cfg.isEmptyCfg = true → calculate_file_weight file cfg now = 1/2)
  ∧ (collectedWeights file cfg now = [] → calculate_file_weight file cfg now = 1/2)
  ∧ (collectedWeights file cfg now ≠ [] →
      calculate_file_weight file cfg now =
        (collectedWeights file cfg now).sum / ((collectedWeights file cfg now).length : ℚ))
  ∧ calculate_file_weight ⟨".log".toList, none⟩ ⟨[(".log".toList, 9/10)], [], []⟩ now = 9/10
  ∧ |calculate_file_weight ⟨[], some ⟨0, 1024 * 1024⟩⟩
        ⟨[], [("0-30".toList, 1/2)], [("0-10".toList, 7/10)]⟩ (15 * 86400) - 6/10|
      ≤ 1/1000000000 := by
  refine ⟨?_, ?_, ?_, ?_, ?_⟩
  · intro h
    unfold calculate_file_weight
    rw [if_pos h]
  · intro h
    by_cases hc : cfg.isEmptyCfg = true
    · unfold calculate_file_weight
      rw [if_pos hc]
    · rw [calculate_file_weight_eval file cfg now (Bool.not_eq_true _ ▸ hc) h, if_pos rfl]
  · intro h
    have hc : cfg.isEmptyCfg = false := by
      rcases Bool.eq_false_or_eq_true cfg.isEmptyCfg with hc | hc
      · exact absurd (collectedWeights_of_empty hc) h
      · exact hc
    rw [calculate_file_weight_eval file cfg now hc rfl, if_neg h]
  · have hcw : collectedWeights ⟨".log".toList, none⟩
        ⟨[(".log".toList, 9/10)], [], []⟩ now = [9/10] := by
      unfold collectedWeights extContribution ageContribution sizeContribution
      rfl
    rw [calculate_file_weight_eval _ _ _ (by decide) hcw]
    show (if [(9 : ℚ)/10] = [] then 1/2 else ([(9 : ℚ)/10]).sum / 1) = 9/10
    rw [if_neg (by simp)]
    norm_num
  · have hage : ageContribution ⟨[], some ⟨0, 1024 * 1024⟩⟩ (15 * 86400)
        [("0-30".toList, 1/2)] = some (1/2) := by
      rw [ageContribution_lookup _ ⟨0, 1024 * 1024⟩ _ (15 * 86400) 15 rfl (by decide)
        (by norm_num)]
      rfl
    have hsize : sizeContribution ⟨[], some ⟨0, 1024 * 1024⟩⟩
        [("0-10".toList, 7/10)] = some (7/10) := by
      rw [sizeContribution_lookup _ ⟨0, 1024 * 1024⟩ _ 1 rfl (by decide) (by norm_num)]
      rfl
    have hcw : collectedWeights ⟨[], some ⟨0, 1024 * 1024⟩⟩
        ⟨[], [("0-30".toList, 1/2)], [("0-10".toList, 7/10)]⟩ (15 * 86400) =
        [1/2, 7/10] := by
      unfold collectedWeights
      rw [hage, hsize]
      rfl
    rw [calculate_file_weight_eval _ _ _ (by decide) hcw]
    rw [if_neg (by simp)]
    show |([(1 : ℚ)/2, 7/10]).sum / ((2 : Nat) : ℚ) - 6/10| ≤ 1/1000000000
    norm_num

/-- C3 witness: the empty-configuration default applied concretely. -/
theorem C3_witness :
    calculate_file_weight ⟨".log".toList, none⟩ ⟨[], [], []⟩ 0 = 1/2 :=
  (C3_weight_default_and_mean ⟨".log".toList, none⟩ ⟨[], [], []⟩ 0).1 rfl

/-- C4: the range-selector grammar.  For numeral strings `s1`, `s2`:
`"<s1>-<s2>"` matches `x` iff `val s1 ≤ x < val s2`; `"<s1>+"` and
`"<s1>-"` match iff `x ≥ val s1` (identically for the age and the size
matcher, which share their body); a selector containing no digit at all
(such as `"x-y"`) never matches any value.  Concretely, under the table
`{"0-7": 0.2, "7-30": 0.5, "30+": 0.9}` a file aged 15 days weighs 0.5 and
one aged 60 days weighs 0.9. -/
theorem C4_range_grammar (x : ℚ) (s1 s2 : List Char)
    (h1 : s1 ≠ [] ∧ ∀ c ∈ s1, c.isDigit = true)
    (h2 : s2 ≠ [] ∧ ∀ c ∈ s2, c.isDigit = true) :
    (_matches_age_range x (s1 ++ '-' :: s2) =
        .ok (decide ((digitsVal s1 : ℚ) ≤ x ∧ x < (digitsVal s2 : ℚ))))
  ∧ (_matches_age_range x (s1 ++ ['+']) = .ok (decide ((digitsVal s1 : ℚ) ≤ x)))
  ∧ (_matches_age_range x (s1 ++ ['-']) = .ok (decide ((digitsVal s1 : ℚ) ≤ x)))
  ∧ (_matches_size_range x (s1 ++ '-' :: s2) =
        .ok (decide ((digitsVal s1 : ℚ) ≤ x ∧ x < (digitsVal s2 : ℚ))))
  ∧ (∀ s : List Char, (∀ c ∈ s, c.isDigit = false) → ∀ b : Bool,
        _matches_age_range x s = .ok b → b = false)
  ∧ calculate_file_weight ⟨[], some ⟨0, 0⟩⟩
      ⟨[], [("0-7".toList, 1/5), ("7-30".toList, 1/2), ("30+".toList, 9/10)], []⟩
      (15 * 86400) = 1/2
  ∧ calculate_file_weight ⟨[], some ⟨0, 0⟩⟩
      ⟨[], [("0-7".toList, 1/5), ("7-30".toList, 1/2), ("30+".toList, 9/10)], []⟩
      (60 * 86400) = 9/10 := by
  refine ⟨?_, ?_, ?_, ?_, ?_, ?_, ?_⟩
  · exact matchesRange_minmax x h1 h2
  · exact matchesRange_ge x (Or.inl rfl) h1
  · exact matchesRange_ge x (Or.inr rfl) h1
  · exact matchesRange_minmax x h1 h2
  · intro s hnd b hb
    exact matchesRange_no_digit x hnd hb
  · rw [calculate_file_weight_eval _ _ _ (by decide)
      (collectedWeights_age_only _ (by decide) 15 lookup_scenario_15)]
    show (if [(1 : ℚ)/2] = [] then 1/2 else ([(1 : ℚ)/2]).sum / 1) = 1/2
    rw [if_neg (by simp)]
    norm_num
  · rw [calculate_file_weight_eval _ _ _ (by decide)
      (collectedWeights_age_only _ (by decide) 60 lookup_scenario_60)]
    show (if [(9 : ℚ)/10] = [] then 1/2 else ([(9 : ℚ)/10]).sum / 1) = 9/10
    rw [if_neg (by simp)]
    norm_num

/-- C4 witness: the min-max grammar direction at `x = 15`, selector
`"7-30"`. -/
theorem C4_witness :
    _matches_age_range 15 (['7'] ++ '-' :: ['3', '0']) =
      .ok (decide ((digitsVal ['7'] : ℚ) ≤ 15 ∧ 15 < (digitsVal ['3', '0'] : ℚ))) :=
  (C4_range_grammar 15 ['7'] ['3', '0'] (by decide) (by decide)).1

/-- C5 counterexample: a path outside the base directory together with the
EMPTY pattern set.  In the modelled `should_protect_file` the
empty-patterns check precedes the outside-of-base check (spec §4.2 lists
"patterns empty ⇒ false unconditionally" first), so the result is `false`
— the claim asserts `true` for every pattern set "including the empty
set". -/
theorem C5_counterexample :
    should_protect_file ["other".toList, "test.txt".toList] ["tmp".toList] [] = false := rfl

/-- C5 (amended): for every NON-EMPTY pattern set, a path outside the base
directory is reported protected (fail closed), whatever the patterns are. -/
theorem C5_outside_fail_closed (path base : List (List Char))
    (patterns : List (List Char)) (hne : patterns ≠ [])
    (hout : relativize path base = none) :
    should_protect_file path base patterns = true := by
  unfold should_protect_file
  rw [if_neg (by rw [List.isEmpty_eq_false.mpr hne]; exact Bool.false_ne_true), hout]

/-- C5 witness: the test scenario — a file in a sibling directory, pattern
set `{"*.txt"}`. -/
theorem C5_witness :
    should_protect_file ["other".toList, "test.txt".toList] ["tmp".toList]
      ["*.txt".toList] = true :=
  C5_outside_fail_closed _ _ _ (by decide) rfl

/-- C6: with an empty pattern set `should_protect_file` returns `false`
for every path under the base directory: no protection configured means
nothing protected. -/
theorem C6_empty_patterns_nothing_protected (path base rel : List (List Char))
    (_hunder : relativize path base = some rel) :
    should_protect_file path base [] = false := rfl

/-- C6 witness: a file directly under the base. -/
theorem C6_witness :
    should_protect_file ["tmp".toList, "test.txt".toList] ["tmp".toList] [] = false :=
  C6_empty_patterns_nothing_protected ["tmp".toList, "test.txt".toList] ["tmp".toList]
    ["test.txt".toList] rfl

/-- C7: `weighted_random_sample` is a deterministic function of its inputs
and the random stream alone — two runs over identical `(items, weights,
k)` with pointwise-equal streams (same seed) and the same stream position
return identical results. -/
theorem C7_determinism {α : Type} (u1 u2 : Nat → ℚ) (h : ∀ n, u1 n = u2 n)
    (step : Nat) (files : List α) (weights : List ℚ) (k : Nat) :
    weighted_random_sample u1 step files weights k =
      weighted_random_sample u2 step files weights k := by
  rw [funext h]

/-- C7 witness: two syntactically different but pointwise-equal streams. -/
theorem C7_witness :
    weighted_random_sample oneStream 0 [(0 : Nat)] [(1 : ℚ)] 1 =
      weighted_random_sample (fun _ => 1) 0 [(0 : Nat)] [(1 : ℚ)] 1 :=
  C7_determinism oneStream (fun _ => 1) (fun _ => rfl) 0 [0] [1] 1

/-- C8 counterexample: `items = [0]`, `weights = [0.0]`, `k = 1`.  The
remaining weights sum to zero, the uniform fallback fires, and the
weight-0 item IS returned — refuting "an item whose weight is 0 is never
included". -/
theorem C8_counterexample :
    weighted_random_sample oneStream 0 [(0 : Nat)] [(0 : ℚ)] 1 = .ok [0] := by
  have hsum : ([(0 : ℚ)]).sum = 0 := by simp
  have hidx : sampleIdx (oneStream 0) 1 [(0 : ℚ)] = 0 := by
    unfold sampleIdx
    rw [if_pos hsum]
    exact Nat.min_zero _
  have h1 : sampleIdx (oneStream 0) [(0 : Nat)].length [(0 : ℚ)] < [(0 : Nat)].length := by
    show sampleIdx (oneStream 0) 1 [(0 : ℚ)] < 1
    rw [hidx]
    norm_num
  have h2 : sampleIdx (oneStream 0) [(0 : Nat)].length [(0 : ℚ)] < [(0 : ℚ)].length := by
    show sampleIdx (oneStream 0) 1 [(0 : ℚ)] < 1
    rw [hidx]
    norm_num
  have hget : ([(0 : Nat)]).get ⟨sampleIdx (oneStream 0) [(0 : Nat)].length [(0 : ℚ)], h1⟩
      = 0 := List.mem_singleton.mp (List.get_mem _ _ _)
  show weighted_random_sample oneStream 0 ((0 : Nat) :: []) [(0 : ℚ)] (0 + 1) = .ok [0]
  rw [wrs_cons_eq oneStream 0 0 [] [(0 : ℚ)] 0 h1 h2 (wrs_zero oneStream (0 + 1) _ _), hget]

/-- C8 (amended): an item of weight 0 is never selected as long as the
weighted branch is in play — whenever the raw draws are strictly positive
(so a cumulative draw never lands on 0) and at most as many items are
requested as there are positive-weight items (so the all-zero uniform
fallback is never reached), every returned item sits at a position of
strictly positive weight.  The original claim fails only through the
uniform fallback (see the counterexample) or a draw of exactly 0. -/
theorem C8_zero_weight_protected {α : Type} (u : Nat → ℚ)
    (hu : ∀ n, 0 < u n ∧ u n ≤ 1) (k step : Nat) (files : List α) (weights : List ℚ)
    (hlen : weights.length = files.length) (hnn : ∀ w ∈ weights, 0 ≤ w)
    (hcount : k ≤ weights.countP (fun w => decide (0 < w))) :
    ∃ l, weighted_random_sample u step files weights k = .ok l ∧
      ∀ x ∈ l, ∃ p ∈ files.zip weights, p.1 = x ∧ 0 < p.2 :=
  wrs_pos_spec u hu k step files weights hlen hnn hcount

/-- C8 witness: items `[10, 20]` with weights `[1, 0]`, `k = 1`. -/
theorem C8_witness :
    ∃ l, weighted_random_sample oneStream 0 [(10 : Nat), 20] [(1 : ℚ), 0] 1 = .ok l ∧
      ∀ x ∈ l, ∃ p ∈ [(10 : Nat), 20].zip [(1 : ℚ), 0], p.1 = x ∧ 0 < p.2 :=
  C8_zero_weight_protected oneStream oneStream_bounds 1 0
    [10, 20] [1, 0] rfl (by decide) (by decide)

/-- A concrete mismatched call: two items but a single weight.  The call
returns a sample silently. -/
theorem wrs_run_mismatched :
    weighted_random_sample oneStream 0 [(10 : Nat), 20] [(1 : ℚ)] 1 = .ok [10] := by
  have hscan : scanPick (uniformDraw (oneStream 0) ([(1 : ℚ)]).sum) [(1 : ℚ)] 0 0 =
      some 0 := by
    unfold scanPick
    rw [if_pos (by norm_num [uniformDraw, oneStream])]
  have hidx : sampleIdx (oneStream 0) 2 [(1 : ℚ)] = 0 := by
    unfold sampleIdx
    rw [if_neg (by norm_num), hscan]
    rfl
  have h1 : sampleIdx (oneStream 0) [(10 : Nat), 20].length [(1 : ℚ)] <
      [(10 : Nat), 20].length := by
    show sampleIdx (oneStream 0) 2 [(1 : ℚ)] < 2
    rw [hidx]
    norm_num
  have h2 : sampleIdx (oneStream 0) [(10 : Nat), 20].length [(1 : ℚ)] <
      [(1 : ℚ)].length := by
    show sampleIdx (oneStream 0) 2 [(1 : ℚ)] < 1
    rw [hidx]
    norm_num
  have hfin : (⟨sampleIdx (oneStream 0) [(10 : Nat), 20].length [(1 : ℚ)], h1⟩ :
      Fin [(10 : Nat), 20].length) = ⟨0, by norm_num⟩ := Fin.ext hidx
  have hget : ([(10 : Nat), 20]).get
      ⟨sampleIdx (oneStream 0) [(10 : Nat), 20].length [(1 : ℚ)], h1⟩ = 10 := by
    rw [hfin]
    rfl
  show weighted_random_sample oneStream 0 ((10 : Nat) :: [20]) [(1 : ℚ)] (0 + 1) = .ok [10]
  rw [wrs_cons_eq oneStream 0 10 [20] [(1 : ℚ)] 0 h1 h2 (wrs_zero oneStream (0 + 1) _ _),
    hget]

/-- C9 counterexample: `items = [10, 20]`, `weights = [1.0]` (mismatched
lengths), `k = 1`.  The call does NOT raise at the boundary: it silently
selects and returns `[10]`. -/
theorem C9_counterexample :
    weighted_random_sample oneStream 0 [(10 : Nat), 20] [(1 : ℚ)] 1 = .ok [10] ∧
      (Except.ok [(10 : Nat)] : Except Unit (List Nat)) ≠ .error () :=
  ⟨wrs_run_mismatched, by simp⟩

/-- C9 (amended): `weighted_random_sample` performs no length validation at
its boundary.  A call whose weights list is strictly shorter than its items
list (with a nonzero weight total) silently returns a one-element sample
instead of failing fast; an exception (`.error`, the `IndexError`) can
arise only later, from out-of-range indexing inside the loop, never as an
up-front validation. -/
theorem C9_no_fail_fast {α : Type} (u : Nat → ℚ) (step : Nat)
    (files : List α) (weights : List ℚ) (hne : files ≠ [])
    (hsum : weights.sum ≠ 0) (hlt : weights.length < files.length) :
    ∃ x, x ∈ files ∧ weighted_random_sample u step files weights 1 = .ok [x] :=
  wrs_one_ok u step files weights hne hsum (le_of_lt hlt)

/-- C9 witness: the mismatched call `([10, 20], [1.0], k = 1)`. -/
theorem C9_witness :
    ∃ x, x ∈ [(10 : Nat), 20] ∧
      weighted_random_sample oneStream 0 [(10 : Nat), 20] [(1 : ℚ)] 1 = .ok [x] :=
  C9_no_fail_fast oneStream 0 [10, 20] [1] (by decide) (by norm_num) (by decide)

/-- A concrete well-formed call used to witness C10: two items, weights
`[1, 1]`, `k = 1`; the draw 1 selects the second item. -/
theorem wrs_run_equal_lengths :
    weighted_random_sample oneStream 0 [(10 : Nat), 20] [(1 : ℚ), 1] 1 = .ok [20] := by
  have hscan : scanPick (uniformDraw (oneStream 0) ([(1 : ℚ), 1]).sum) [(1 : ℚ), 1] 0 0 =
      some (0 + 1) := by
    unfold scanPick
    rw [if_neg (by norm_num [uniformDraw, oneStream])]
    unfold scanPick
    rw [if_pos (by norm_num [uniformDraw, oneStream])]
  have hidx : sampleIdx (oneStream 0) 2 [(1 : ℚ), 1] = 1 := by
    unfold sampleIdx
    rw [if_neg (by norm_num), hscan]
    rfl
  have h1 : sampleIdx (oneStream 0) [(10 : Nat), 20].length [(1 : ℚ), 1] <
      [(10 : Nat), 20].length := by
    show sampleIdx (oneStream 0) 2 [(1 : ℚ), 1] < 2
    rw [hidx]
    norm_num
  have h2 : sampleIdx (oneStream 0) [(10 : Nat), 20].length [(1 : ℚ), 1] <
      [(1 : ℚ), 1].length := by
    show sampleIdx (oneStream 0) 2 [(1 : ℚ), 1] < 2
    rw [hidx]
    norm_num
  have hfin : (⟨sampleIdx (oneStream 0) [(10 : Nat), 20].length [(1 : ℚ), 1], h1⟩ :
      Fin [(10 : Nat), 20].length) = ⟨1, by norm_num⟩ := Fin.ext hidx
  have hget : ([(10 : Nat), 20]).get
      ⟨sampleIdx (oneStream 0) [(10 : Nat), 20].length [(1 : ℚ), 1], h1⟩ = 20 := by
    rw [hfin]
    rfl
  show weighted_random_sample oneStream 0 ((10 : Nat) :: [20]) [(1 : ℚ), 1] (0 + 1) =
    .ok [20]
  rw [wrs_cons_eq oneStream 0 10 [20] [(1 : ℚ), 1] 0 h1 h2
    (wrs_zero oneStream (0 + 1) _ _), hget]

/-- C10: across any number of loop iterations of the sampling state
machine, the caller's `files` and `weights` bindings are untouched — every
pop is applied to the local copies made at entry — and under matched
lengths the `selected` list built by the state machine is exactly the
value `weighted_random_sample` returns, so the caller can keep using its
own lists afterwards (as `snap` does). -/
theorem C10_caller_lists_unchanged {α : Type} [Inhabited α] (u : Nat → ℚ)
    (files : List α) (weights : List ℚ) (k : Nat) :
    (runSample u 0 (initState files weights) k).files = files
  ∧ (runSample u 0 (initState files weights) k).weights = weights
  ∧ (weights.length = files.length →
      ∀ l, weighted_random_sample u 0 files weights k = .ok l →
        (runSample u 0 (initState files weights) k).selected = l) := by
  obtain ⟨h1, h2⟩ := runSample_frame u k 0 (initState files weights)
  refine ⟨h1, h2, ?_⟩
  intro hlen l hrun
  have hsel := runSample_selected u k 0 (initState files weights) l hlen hrun
  simpa using hsel

/-- C10 witness: a concrete two-item run. -/
theorem C10_witness :
    (runSample oneStream 0 (initState [(10 : Nat), 20] [(1 : ℚ), 1]) 1).files = [10, 20]
  ∧ (runSample oneStream 0 (initState [(10 : Nat), 20] [(1 : ℚ), 1]) 1).weights = [1, 1]
  ∧ (runSample oneStream 0 (initState [(10 : Nat), 20] [(1 : ℚ), 1]) 1).selected = [20] := by
  obtain ⟨h1, h2, h3⟩ := C10_caller_lists_unchanged oneStream [(10 : Nat), 20] [(1 : ℚ), 1] 1
  exact ⟨h1, h2, h3 rfl [20] wrs_run_equal_lengths⟩

end Thanos
